import Mathlib

/-!
Verification of the unitdb/tracedb durability and indexing core against its
natural-language specification.  The Go source is shallowly embedded: pure
functions become Lean functions over Nat/Int, stateful code becomes explicit
state passing, machine-integer conversions are written with explicit modular
arithmetic.
-/

namespace Unitdb

/-! ## Extendible-hash directory (db.go: blockIndex, split, Open) -/
/-- Directory state of the extendible-hash index: fields level, nBlocks and
splitBlockIdx of dbInfo in db.go. -/
structure DirState where
  level : Nat
  nBlocks : Nat
  splitBlockIdx : Nat
deriving Repr, DecidableEq

/-- Embedding of DB.blockIndex from db.go: idx is keyHash masked by
(1 shifted left by level) minus 1; when idx is below splitBlockIdx one more
hash bit is used. -/
def blockIndex (level splitBlockIdx keyHash : Nat) : Nat :=
  let idx := keyHash &&& ((1 <<< level) - 1)
  if idx < splitBlockIdx then
    keyHash &&& ((1 <<< (level + 1)) - 1)
  else
    idx

/-- Rendering of the specification sentence for the block-index choice, with
the low-bit masks written as remainders modulo powers of two. -/
def blockIndexSpec (level splitBlockIdx keyHash : Nat) : Nat :=
  let idx := keyHash % 2 ^ level
  if idx < splitBlockIdx then
    keyHash % 2 ^ (level + 1)
  else
    idx

/-- Directory portion of DB.split in db.go: splitBlockIdx is incremented,
wrapping with a level bump when it reaches 1 shifted left by level, and
nBlocks is incremented. -/
def splitDirStep (s : DirState) : DirState :=
  let s1 := s.splitBlockIdx + 1
  let s2 : DirState :=
    if s1 = 1 <<< s.level then
      { s with level := s.level + 1, splitBlockIdx := 0 }
    else
      { s with splitBlockIdx := s1 }
  { s2 with nBlocks := s2.nBlocks + 1 }

/-- Directory state of a freshly created DB in Open (db.go): dbInfo starts
with nBlocks one and zero level and splitBlockIdx. -/
def initialDirState : DirState := { level := 0, nBlocks := 1, splitBlockIdx := 0 }

/-- Structural invariant of the directory: the block count equals the
directory size plus the split cursor, and the cursor is inside the
directory. -/
def dirInv (s : DirState) : Prop :=
  s.nBlocks = 2 ^ s.level + s.splitBlockIdx ∧ s.splitBlockIdx < 2 ^ s.level

/-! ## Header binary layout (header.MarshalBinary / UnmarshalBinary) -/
/-- Persistent dbInfo fields of the header (db.go, tracedb variant): level,
count, nBlocks, splitBlockIdx, freelistOff and hashSeed. -/
structure DbInfo where
  level : Nat
  count : Nat
  nBlocks : Nat
  splitBlockIdx : Nat
  freelistOff : Int
  hashSeed : Nat
deriving Repr, DecidableEq

/-- Header value: seven signature bytes, a version word and the dbInfo. -/
structure Header where
  signature : List Nat
  version : Nat
  info : DbInfo
deriving Repr, DecidableEq

/-- Little-endian byte number i of a natural number, as produced by the
byte conversions inside binary.LittleEndian.PutUint32 and PutUint64. -/
def octet (v i : Nat) : Nat := v / 256 ^ i % 256

/-- Conversion uint64(x) applied to a signed 64-bit value: two-complement
reduction modulo 2 to the 64. -/
def intToUint64 (x : Int) : Nat := (x % 18446744073709551616).toNat

/-- Conversion int64(u) applied to an unsigned 64-bit value. -/
def uint64ToInt (u : Nat) : Int :=
  if u < 9223372036854775808 then (u : Int) else (u : Int) - 18446744073709551616

/-- Embedding of header.MarshalBinary: a 512-byte buffer holding the seven
signature bytes, a pad byte, the version, level, count, nBlocks,
splitBlockIdx, freelistOff and hashSeed at the offsets of the source, then
zero padding. -/
def headerMarshal (h : Header) : List Nat :=
  h.signature.getD 0 0 :: h.signature.getD 1 0 :: h.signature.getD 2 0 ::
  h.signature.getD 3 0 :: h.signature.getD 4 0 :: h.signature.getD 5 0 ::
  h.signature.getD 6 0 :: 0 ::
  octet h.version 0 :: octet h.version 1 :: octet h.version 2 :: octet h.version 3 ::
  h.info.level ::
  octet h.info.count 0 :: octet h.info.count 1 :: octet h.info.count 2 :: octet h.info.count 3 ::
  octet h.info.nBlocks 0 :: octet h.info.nBlocks 1 :: octet h.info.nBlocks 2 :: octet h.info.nBlocks 3 ::
  octet h.info.splitBlockIdx 0 :: octet h.info.splitBlockIdx 1 :: octet h.info.splitBlockIdx 2 :: octet h.info.splitBlockIdx 3 ::
  octet (intToUint64 h.info.freelistOff) 0 :: octet (intToUint64 h.info.freelistOff) 1 ::
  octet (intToUint64 h.info.freelistOff) 2 :: octet (intToUint64 h.info.freelistOff) 3 ::
  octet (intToUint64 h.info.freelistOff) 4 :: octet (intToUint64 h.info.freelistOff) 5 ::
  octet (intToUint64 h.info.freelistOff) 6 :: octet (intToUint64 h.info.freelistOff) 7 ::
  octet h.info.hashSeed 0 :: octet h.info.hashSeed 1 :: octet h.info.hashSeed 2 :: octet h.info.hashSeed 3 ::
  List.replicate 475 0

/-- Little-endian 32-bit read at offset o, as binary.LittleEndian.Uint32. -/
def read32 (data : List Nat) (o : Nat) : Nat :=
  data.getD o 0 + 256 * data.getD (o + 1) 0 + 65536 * data.getD (o + 2) 0
    + 16777216 * data.getD (o + 3) 0

/-- Little-endian 64-bit read at offset o, as binary.LittleEndian.Uint64. -/
def read64 (data : List Nat) (o : Nat) : Nat :=
  read32 data o + 4294967296 * read32 data (o + 4)

/-- Embedding of header.UnmarshalBinary: reads the signature bytes and the
fields back from their offsets. -/
def headerUnmarshal (data : List Nat) : Header :=
  { signature := [data.getD 0 0, data.getD 1 0, data.getD 2 0, data.getD 3 0,
                  data.getD 4 0, data.getD 5 0, data.getD 6 0],
    version := read32 data 8,
    info := { level := data.getD 12 0,
              count := read32 data 13,
              nBlocks := read32 data 17,
              splitBlockIdx := read32 data 21,
              freelistOff := uint64ToInt (read64 data 25),
              hashSeed := read32 data 33 } }

/-! ## Batch deduplication (batch.go: Batch.uniq) -/
/-- One batchIndex record of a batch (batch.go): delete flag, dedup key and
buffer offset. -/
structure BatchIdx where
  delFlag : Bool
  key : Nat
  offset : Int
deriving Repr, DecidableEq

/-- Zero value of batchIndex. -/
def defaultBatchIdx : BatchIdx := { delFlag := false, key := 0, offset := 0 }

/-- Embedding of the reverse scan in Batch.uniq: positions are visited from
high to low and a position is recorded together with its key when the key
has not been seen yet, mirroring the uniqueSet map with its insertion
counter newidx given by the position in the accumulator. -/
def uniqScan (index : List BatchIdx) : Nat → List (Nat × Nat) → List (Nat × Nat)
  | 0, acc => acc
  | k + 1, acc =>
      let e := index.getD k defaultBatchIdx
      uniqScan index k
        (if (acc.map Prod.fst).contains e.key then acc else acc ++ [(e.key, k)])

/-- Embedding of Batch.uniq: with AllowDuplicates the pending writes are a
copy of the index; otherwise each recorded occurrence is placed at slot
(count minus newidx minus one), which reverses the scan order. -/
def uniq (allowDuplicates : Bool) (index : List BatchIdx) : List BatchIdx :=
  if allowDuplicates then index
  else
    ((uniqScan index index.length []).reverse).map
      (fun p => index.getD p.2 defaultBatchIdx)

/-- Rendering of the claim: retain exactly the entries that are the last
occurrence of their key in the index, in their original relative order. -/
def keepLatest : List BatchIdx → List BatchIdx
  | [] => []
  | e :: rest =>
      if (rest.map BatchIdx.key).contains e.key then keepLatest rest
      else e :: keepLatest rest

/-- Variant of keepLatest that also drops entries whose key occurs in a seen
set, used to track the keys already retained by the scan. -/
def keepLatestSeen (seen : List Nat) : List BatchIdx → List BatchIdx
  | [] => []
  | e :: rest =>
      if (rest.map BatchIdx.key).contains e.key || seen.contains e.key then
        keepLatestSeen seen rest
      else e :: keepLatestSeen seen rest

/-- The scan of Batch.uniq with the accumulator factored out: the list of
newly discovered (key, position) pairs, highest position first. -/
def discover (index : List BatchIdx) : Nat → List Nat → List (Nat × Nat)
  | 0, _ => []
  | k + 1, seen =>
      let e := index.getD k defaultBatchIdx
      if seen.contains e.key then discover index k seen
      else (e.key, k) :: discover index k (e.key :: seen)

/-! ## Batch commit (batch.go: Batch.Commit, Batch.Abort, Batch.Reset) -/
/-- Mutable fields of a batch relevant to Commit and Reset. -/
structure BatchState where
  entryCount : Nat
  size : Int
  index : List BatchIdx
  pendingWrites : List BatchIdx
  bufferSize : Int
deriving Repr, DecidableEq

/-- Embedding of Batch.Reset: entry count, size, index and pending writes
are cleared; the buffer reset in the source is commented out, so the buffer
is untouched. -/
def batchReset (b : BatchState) : BatchState :=
  { b with entryCount := 0, size := 0, index := [], pendingWrites := [] }

/-- Observable outcome of Batch.Commit: the returned error, the error passed
to the logger, whether db.commit ran, whether the buffer went back to the
pool via Abort, and the resulting batch fields. -/
structure CommitOutcome where
  returnedErr : Option Nat
  loggedErr : Option Nat
  walCommit : Bool
  bufferToPool : Bool
  finalBatch : BatchState
deriving Repr, DecidableEq

/-- Embedding of Batch.Commit for a non-managed batch, parameterised by the
result of the WAL commit db.commit (repository code outside src): with no
pending writes or an empty buffer the batch is aborted (Reset plus buffer
returned to the pool) and nil is returned; otherwise db.commit runs and a
failure is only logged while nil is returned. -/
def batchCommit (b : BatchState) (commitErr : Option Nat) : CommitOutcome :=
  if b.pendingWrites.length = 0 ∨ b.bufferSize = 0 then
    { returnedErr := none, loggedErr := none, walCommit := false,
      bufferToPool := true, finalBatch := batchReset b }
  else
    { returnedErr := none, loggedErr := commitErr, walCommit := true,
      bufferToPool := false, finalBatch := b }

/-- A nonempty committed batch used as concrete input. -/
def commitBatchExample : BatchState :=
  { entryCount := 1, size := 8, index := [defaultBatchIdx],
    pendingWrites := [defaultBatchIdx], bufferSize := 8 }

/-- An empty batch used as concrete input. -/
def emptyBatchExample : BatchState :=
  { entryCount := 2, size := 4, index := [defaultBatchIdx],
    pendingWrites := [], bufferSize := 4 }

/-! ## Batch write pipeline (batch.go: Batch.writeInternal, Batch.Write) -/
/-- One decoded pending write of a batch: the delete flag of its batchIndex
record and the seq, topic hash and expiry read from the packed entry. -/
structure PendingEntry where
  delFlag : Bool
  seq : Nat
  topicHash : Nat
  expiresAt : Nat
deriving Repr, DecidableEq

/-- Effects of the write pipeline on the DB. -/
inductive WriteOp where
  | memSet (blockID memseq topicHash seq : Nat)
  | trieAdd (topicHash : Nat)
  | winAdd (topicHash seq expiresAt : Nat)
  | dbDelete (topicHash seq : Nat)
deriving Repr, DecidableEq

/-- Entries per index block (constant of db.go and unitdb). -/
def entriesPerIndexBlock : Nat := 22

/-- Modelled from the spec: startBlockIndex is repository code outside src;
db_sync.go derives the block count of an upper sequence number as
(upperSeq - 1) / entriesPerIndexBlock, so the block of a sequence number is
its predecessor divided by the entries per block. -/
def startBlockIndex (seq : Nat) : Nat := (seq - 1) / entriesPerIndexBlock

/-- Error code standing for errTopicEmpty. -/
def errTopicEmptyCode : Nat := 1

/-- Embedding of Batch.writeInternal composed with the callback passed by
Batch.Write, over decoded pending entries: a tombstone (delFlag set and
nonzero seq) whose seq fails the presence filter makes the function return
nil at once; a tombstone passing the filter is routed to db.delete and the
loop continues; any other entry is put into the memtable with
memseq = cacheID xor seq, then its topic must be in the batch topics map,
then trie-add and window-add run. -/
def writeInternal (filterTest : Nat → Bool) (topics : List Nat) (cacheID : Nat) :
    List PendingEntry → List WriteOp × Option Nat
  | [] => ([], none)
  | e :: rest =>
      if e.delFlag ∧ e.seq ≠ 0 then
        if ¬ filterTest e.seq then ([], none)
        else
          let r := writeInternal filterTest topics cacheID rest
          (WriteOp.dbDelete e.topicHash e.seq :: r.1, r.2)
      else
        if topics.contains e.topicHash then
          let r := writeInternal filterTest topics cacheID rest
          (WriteOp.memSet (startBlockIndex e.seq) (cacheID ^^^ e.seq) e.topicHash e.seq
            :: WriteOp.trieAdd e.topicHash
            :: WriteOp.winAdd e.topicHash e.seq e.expiresAt :: r.1, r.2)
        else
          ([WriteOp.memSet (startBlockIndex e.seq) (cacheID ^^^ e.seq) e.topicHash e.seq],
            some errTopicEmptyCode)

/-- A tombstone whose seq is not present in the filter. -/
def tombstoneMissEntry : PendingEntry :=
  { delFlag := true, seq := 1, topicHash := 100, expiresAt := 0 }

/-- A normal put entry following the tombstone. -/
def putEntryAfter : PendingEntry :=
  { delFlag := false, seq := 2, topicHash := 100, expiresAt := 5 }

/-! ## Header reading (db.go: DB.readHeader, both variants) -/
/-- The signature constant: the bytes of the word tracedb. -/
def signatureBytes : List Nat := [116, 114, 97, 99, 101, 100, 98]

/-- Result of DB.readHeader. -/
inductive ReadHeaderResult where
  | ok (info : DbInfo)
  | corrupted
deriving Repr, DecidableEq

/-- Embedding of DB.readHeader in the tracedb variant of db.go: the stored
signature is compared with the signature constant and a mismatch fails with
errCorrupted; on success dbInfo is installed with freelistOff reset. -/
def readHeaderTracedb (data : List Nat) : ReadHeaderResult :=
  let h := headerUnmarshal data
  if h.signature = signatureBytes then
    ReadHeaderResult.ok { h.info with freelistOff := -1 }
  else ReadHeaderResult.corrupted

/-- Embedding of DB.readHeader in the unitdb variant of db.go, where the
signature comparison is commented out: the header is accepted
unconditionally. -/
def readHeaderUnitdb (data : List Nat) : ReadHeaderResult :=
  let h := headerUnmarshal data
  ReadHeaderResult.ok { h.info with freelistOff := -1 }

/-- A stored header whose signature bytes differ from the constant. -/
def corruptHeaderBytes : List Nat :=
  headerMarshal { signature := [88, 88, 88, 88, 88, 88, 88], version := 1,
                  info := { level := 0, count := 0, nBlocks := 1, splitBlockIdx := 0,
                            freelistOff := -1, hashSeed := 0 } }

/-! ## Topic trie (message/trie.go: Trie.Add, Trie.Remove, part.orphan) -/
/-- Key of one topic part: the query hash and wildchars count. -/
structure TKey where
  query : Nat
  wildchars : Nat
deriving Repr, DecidableEq

/-- Payload of a trie node: its seq set ss and recorded depth. -/
structure TrieNode where
  ss : List Nat
  depth : Nat
deriving Repr, DecidableEq

/-- Arena representation of the part trie, following the design note of the
spec for the cyclic parent and child pointers: nodes are keyed by their full
path of part keys from the root, the root having the empty path. The
children map of a node holds exactly the present paths extending its path by
one key, and the parent pointer is path shortening by one. -/
abbrev TrieMap := List (List TKey × TrieNode)

/-- First binding of a path in the arena. -/
def lookupPath (m : TrieMap) (p : List TKey) : Option TrieNode :=
  match m with
  | [] => none
  | (q, n) :: rest => if q = p then some n else lookupPath rest p

/-- Replace the binding of a path, or append a new binding. -/
def setPath (m : TrieMap) (p : List TKey) (n : TrieNode) : TrieMap :=
  match m with
  | [] => [(p, n)]
  | (q, x) :: rest => if q = p then (q, n) :: rest else (q, x) :: setPath rest p n

/-- Delete the binding of a path (the delete on the children map of the
parent in part.orphan). -/
def delPath (m : TrieMap) (p : List TKey) : TrieMap :=
  match m with
  | [] => []
  | (q, x) :: rest => if q = p then rest else (q, x) :: delPath rest p

/-- Whether the node at path p has a child: some present path extends p by
one key (nonempty children map of part). -/
def hasChild (m : TrieMap) (p : List TKey) : Bool :=
  m.any (fun q => decide (q.1.length = p.length + 1) && decide (q.1.take p.length = p))

/-- Embedding of Trie.Add descending from the root: a missing child on the
path is created with an empty seq set; at the end of the path the seq is
appended (duplicates allowed, the unique-add of the source is commented out)
and the depth is recorded. -/
def trieAddAux (m : TrieMap) (cur parts : List TKey) (depth seq : Nat) : TrieMap :=
  match parts with
  | [] =>
      let n := (lookupPath m cur).getD { ss := [], depth := 0 }
      setPath m cur { ss := n.ss ++ [seq], depth := depth }
  | k :: rest =>
      let next := cur ++ [k]
      let m2 := if (lookupPath m next).isSome then m
                else setPath m next { ss := [], depth := 0 }
      trieAddAux m2 next rest depth seq

/-- Trie.Add from the root. -/
def trieAdd (parts : List TKey) (depth seq : Nat) (m : TrieMap) : TrieMap :=
  trieAddAux m [] parts depth seq

/-- Embedding of ssid.remove: the first occurrence of the value is
overwritten with the last element and the list shortened by one. -/
def ssRemove (ss : List Nat) (v : Nat) : List Nat :=
  match ss.findIdx? (fun x => x == v) with
  | none => ss
  | some i => (ss.set i (ss.getLastD 0)).dropLast

/-- Embedding of the orphan propagation of part.orphan: starting at the node
where the removal happened, while the node is not the root and has an empty
seq set and no children, it is deleted from its parent and the check moves
to the parent. -/
def prune (m : TrieMap) (p : List TKey) : TrieMap :=
  if hp : p = [] then m
  else
    match lookupPath m p with
    | none => m
    | some n =>
        if n.ss.isEmpty && !hasChild m p then prune (delPath m p) p.dropLast
        else m
termination_by p.length
decreasing_by
  simp only [List.length_dropLast]
  have := List.length_pos.mpr hp
  omega

/-- Embedding of Trie.Remove: when some child along the path is missing
nothing changes; otherwise the seq is removed from the seq set of the node
at the end of the path and orphan propagation runs from that node. -/
def trieRemove (parts : List TKey) (seq : Nat) (m : TrieMap) : TrieMap :=
  match lookupPath m parts with
  | none => m
  | some n =>
      prune (setPath m parts { ss := ssRemove n.ss seq, depth := n.depth }) parts

/-- Embedding of NewTrie: only the root, with an empty seq set. -/
def trieInit : TrieMap := [([], { ss := [], depth := 0 })]

/-- One trie operation. -/
inductive TrieOp where
  | add (parts : List TKey) (depth seq : Nat)
  | remove (parts : List TKey) (seq : Nat)
deriving Repr, DecidableEq

/-- Apply one operation. -/
def applyOp (m : TrieMap) : TrieOp → TrieMap
  | TrieOp.add parts depth seq => trieAdd parts depth seq m
  | TrieOp.remove parts seq => trieRemove parts seq m

/-- Apply a sequence of operations to the fresh trie. -/
def applyOps (ops : List TrieOp) : TrieMap := ops.foldl applyOp trieInit

/-- Paths bound in the arena. -/
def keys (m : TrieMap) : List (List TKey) := m.map Prod.fst

/-- Paths are bound at most once. -/
def keysNodup : TrieMap → Bool
  | [] => true
  | (q, _) :: rest => !(rest.any (fun r => decide (r.1 = q))) && keysNodup rest

/-- The root path is bound. -/
def rootPresent (m : TrieMap) : Bool := (lookupPath m []).isSome

/-- Every non-root node has its parent bound. -/
def parentClosed (m : TrieMap) : Bool :=
  m.all (fun q => decide (q.1 = []) || (lookupPath m q.1.dropLast).isSome)

/-- The claim invariant: every node reachable from the root other than the
root has a nonempty seq set or a nonempty children map. -/
def trieInv (m : TrieMap) : Bool :=
  m.all (fun q => decide (q.1 = []) || !q.2.ss.isEmpty || hasChild m q.1)

/-- The claim invariant relaxed at one path. -/
def trieInvExcept (m : TrieMap) (p : List TKey) : Bool :=
  m.all (fun q => decide (q.1 = p) || decide (q.1 = [])
    || !q.2.ss.isEmpty || hasChild m q.1)

/-- All structural invariants of the trie arena together. -/
def goodMap (m : TrieMap) : Bool :=
  keysNodup m && rootPresent m && parentClosed m && trieInv m

/-! ## Extendible-hash split (db.go: DB.split) -/
/-- Stored fields of one index entry. -/
structure IdxEntry where
  hash : Nat
  topicSize : Nat
  valueSize : Nat
  expiresAt : Nat
  kvOffset : Int
deriving Repr, DecidableEq

/-- Modelled from the spec: blockHandle and entryWriter are repository code
outside src. Logical state of the extendible-hash table: each directory
index owns the ordered list of occupied entries reachable along its block
chain (in each block the entries before the first empty slot, concatenated
along the overflow chain); per the spec a split rehashes one logical block
of entries, including its overflow chain, into two blocks using one more
hash bit, with overflow blocks allocated lazily when a block is full, so a
chain is represented by the list of its entries. -/
structure HashTable where
  level : Nat
  nBlocks : Nat
  splitBlockIdx : Nat
  chains : List (List IdxEntry)
deriving Repr, DecidableEq

/-- Embedding of DB.split at the logical level: the directory advances as in
the source, the chain at the old splitBlockIdx is scanned in order and each
entry is rehashed with the already updated directory state; entries whose
block index is still updatedBlockIdx stay there, the rest go to the block
freshly appended by index.extend, and nBlocks is incremented. -/
def splitTable (t : HashTable) : HashTable :=
  let updatedBlockIdx := t.splitBlockIdx
  let level2 := if t.splitBlockIdx + 1 = 1 <<< t.level then t.level + 1 else t.level
  let splitIdx2 := if t.splitBlockIdx + 1 = 1 <<< t.level then 0 else t.splitBlockIdx + 1
  let oldChain := t.chains.getD updatedBlockIdx []
  let keep := oldChain.filter
    (fun e => blockIndex level2 splitIdx2 e.hash == updatedBlockIdx)
  let moved := oldChain.filter
    (fun e => !(blockIndex level2 splitIdx2 e.hash == updatedBlockIdx))
  { level := level2, splitBlockIdx := splitIdx2, nBlocks := t.nBlocks + 1,
    chains := t.chains.set updatedBlockIdx keep ++ [moved] }

/-- Every entry sits in the chain selected by the block index of its hash. -/
def tableWellPlaced (t : HashTable) : Bool :=
  (List.range t.chains.length).all (fun i =>
    (t.chains.getD i []).all
      (fun e => blockIndex t.level t.splitBlockIdx e.hash == i))

/-- Directory shape invariant of the table. -/
def tableInv (t : HashTable) : Prop :=
  t.nBlocks = 2 ^ t.level + t.splitBlockIdx
    ∧ t.splitBlockIdx < 2 ^ t.level
    ∧ t.chains.length = t.nBlocks

/-- Concrete two-entry table at level zero used as witness input. -/
def splitWitnessTable : HashTable :=
  { level := 0, nBlocks := 1, splitBlockIdx := 0,
    chains := [[{ hash := 0, topicSize := 1, valueSize := 1, expiresAt := 0, kvOffset := 1 },
                { hash := 1, topicSize := 1, valueSize := 2, expiresAt := 0, kvOffset := 9 }]] }

theorem blockIndex_eq_mod (level splitBlockIdx keyHash : Nat) :
    blockIndex level splitBlockIdx keyHash
      = blockIndexSpec level splitBlockIdx keyHash := by
  simp [blockIndex, blockIndexSpec, Nat.one_shiftLeft,
    Nat.and_pow_two_sub_one_eq_mod]

theorem dirInv_initial : dirInv initialDirState := by
  constructor <;> simp [initialDirState]

theorem dirInv_step {s : DirState} (h : dirInv s) : dirInv (splitDirStep s) := by
  obtain ⟨h1, h2⟩ := h
  unfold splitDirStep dirInv
  simp only [Nat.one_shiftLeft]
  split <;> rename_i hcond <;>
    refine ⟨?_, ?_⟩ <;> simp only [Nat.pow_succ] <;> omega

theorem dirInv_iterate (n : Nat) : dirInv (splitDirStep^[n] initialDirState) := by
  induction n with
  | zero => exact dirInv_initial
  | succ k ih =>
      rw [Function.iterate_succ_apply']
      exact dirInv_step ih

/-- The two possible values of a remainder modulo the next power of two. -/
theorem mod_two_pow_succ_cases (h L : Nat) :
    h % 2 ^ (L + 1) = h % 2 ^ L ∨ h % 2 ^ (L + 1) = h % 2 ^ L + 2 ^ L := by
  have hx := @Nat.mod_pow_succ h 2 L
  have hb : (h / 2 ^ L) % 2 = 0 ∨ (h / 2 ^ L) % 2 = 1 := Nat.mod_two_eq_zero_or_one _
  rcases hb with hb | hb <;> rw [hx, hb] <;> omega

theorem blockIndex_lt_of_dirInv {s : DirState} (h : dirInv s) (keyHash : Nat) :
    blockIndex s.level s.splitBlockIdx keyHash < s.nBlocks := by
  obtain ⟨h1, h2⟩ := h
  rw [blockIndex_eq_mod]
  unfold blockIndexSpec
  simp only
  split
  · rename_i hlt
    rcases mod_two_pow_succ_cases keyHash s.level with hc | hc <;> omega
  · rename_i hge
    have := Nat.mod_lt keyHash (Nat.two_pow_pos s.level)
    omega

/-- C5: for every hash value and every directory state, the block index
chosen by DB.blockIndex equals the extendible-hash directory formula of the
specification: the hash masked to level bits, replaced by the mask with one
more bit exactly when the masked value is below the split cursor. -/
theorem claim_C5_blockIndex (level splitBlockIdx keyHash : Nat) :
    blockIndex level splitBlockIdx keyHash
      = blockIndexSpec level splitBlockIdx keyHash :=
  blockIndex_eq_mod level splitBlockIdx keyHash

theorem octet_mod (v k i : Nat) (hik : i < k) :
    octet (v % 256 ^ k) i = octet v i := by
  unfold octet
  have hk : (256:Nat) ^ k = 256 ^ i * 256 ^ (k - i) := by
    rw [← pow_add]
    congr 1
    omega
  rw [hk, Nat.mod_mul_right_div_self]
  have hdvd : (256:Nat) ∣ 256 ^ (k - i) := dvd_pow_self 256 (by omega)
  rw [Nat.mod_mod_of_dvd _ hdvd]

theorem octet_mod32 (v i : Nat) (hik : i < 4) :
    octet (v % 4294967296) i = octet v i := by
  have h4 : (4294967296:Nat) = 256 ^ 4 := by norm_num
  rw [h4]
  exact octet_mod v 4 i hik

theorem recompose32 (v : Nat) :
    octet v 0 + 256 * octet v 1 + 65536 * octet v 2 + 16777216 * octet v 3
      = v % 4294967296 := by
  simp only [octet]
  norm_num
  omega

theorem recompose64 (v : Nat) :
    (octet v 0 + 256 * octet v 1 + 65536 * octet v 2 + 16777216 * octet v 3)
      + 4294967296 * (octet v 4 + 256 * octet v 5 + 65536 * octet v 6 + 16777216 * octet v 7)
      = v % 18446744073709551616 := by
  simp only [octet]
  norm_num
  omega

theorem intToUint64_lt (x : Int) : intToUint64 x < 18446744073709551616 := by
  unfold intToUint64
  omega

theorem intToUint64_uint64ToInt (u : Nat) (hu : u < 18446744073709551616) :
    intToUint64 (uint64ToInt u) = u := by
  unfold intToUint64 uint64ToInt
  split <;> omega

theorem headerUnmarshal_headerMarshal (h : Header) :
    headerUnmarshal (headerMarshal h) =
      { signature := [h.signature.getD 0 0, h.signature.getD 1 0, h.signature.getD 2 0,
                      h.signature.getD 3 0, h.signature.getD 4 0, h.signature.getD 5 0,
                      h.signature.getD 6 0],
        version := h.version % 4294967296,
        info := { level := h.info.level,
                  count := h.info.count % 4294967296,
                  nBlocks := h.info.nBlocks % 4294967296,
                  splitBlockIdx := h.info.splitBlockIdx % 4294967296,
                  freelistOff := uint64ToInt (intToUint64 h.info.freelistOff),
                  hashSeed := h.info.hashSeed % 4294967296 } } := by
  unfold headerUnmarshal headerMarshal read64 read32
  simp only [List.getD_cons_zero, List.getD_cons_succ]
  rw [recompose32 h.version, recompose32 h.info.count, recompose32 h.info.nBlocks,
    recompose32 h.info.splitBlockIdx, recompose32 h.info.hashSeed]
  congr 2
  rw [recompose64]
  rw [Nat.mod_eq_of_lt (intToUint64_lt h.info.freelistOff)]

theorem discover_congr (index : List BatchIdx) (k : Nat) (s1 s2 : List Nat)
    (h : ∀ a, s1.contains a = s2.contains a) :
    discover index k s1 = discover index k s2 := by
  induction k generalizing s1 s2 with
  | zero => rfl
  | succ k ih =>
      unfold discover
      simp only
      rw [h]
      split
      · exact ih s1 s2 h
      · congr 1
        apply ih
        intro a
        simp only [List.contains_cons, h]

theorem uniqScan_eq (index : List BatchIdx) (k : Nat) (acc : List (Nat × Nat)) :
    uniqScan index k acc = acc ++ discover index k (acc.map Prod.fst) := by
  induction k generalizing acc with
  | zero => simp [uniqScan, discover]
  | succ k ih =>
      unfold uniqScan discover
      simp only
      split
      · rw [ih]
      · rw [ih]
        rw [discover_congr index k ((acc ++ [((index.getD k defaultBatchIdx).key, k)]).map Prod.fst)
              ((index.getD k defaultBatchIdx).key :: acc.map Prod.fst) ?_]
        · simp
        · intro a
          by_cases hmem : a = (index[k]?.getD defaultBatchIdx).key
          · subst hmem
            simp
          · have hb : (a == (index[k]?.getD defaultBatchIdx).key) = false :=
              beq_eq_false_iff_ne.mpr hmem
            simp [hb, hmem]

theorem keepLatestSeen_snoc (seen : List Nat) (l : List BatchIdx) (e : BatchIdx) :
    keepLatestSeen seen (l ++ [e]) =
      if seen.contains e.key then keepLatestSeen seen l
      else keepLatestSeen (e.key :: seen) l ++ [e] := by
  induction l with
  | nil =>
      simp only [List.nil_append, keepLatestSeen]
      cases hse : seen.contains e.key <;> simp [keepLatestSeen]
  | cons x rest ih =>
      simp only [List.cons_append, keepLatestSeen, List.map_append, List.map_cons,
        List.map_nil, ih]
      cases hse : seen.contains e.key <;>
        cases h1 : (rest.map BatchIdx.key).contains x.key <;>
          cases h2 : x.key == e.key <;>
            cases h3 : seen.contains x.key <;>
              simp_all [keepLatestSeen]

theorem keepLatestSeen_nil_seen (l : List BatchIdx) :
    keepLatestSeen [] l = keepLatest l := by
  induction l with
  | nil => rfl
  | cons e rest ih =>
      unfold keepLatestSeen keepLatest
      simp [ih]

theorem discover_keepLatest (index : List BatchIdx) (k : Nat)
    (hk : k ≤ index.length) (seen : List Nat) :
    ((discover index k seen).reverse).map (fun p => index.getD p.2 defaultBatchIdx)
      = keepLatestSeen seen (index.take k) := by
  induction k generalizing seen with
  | zero => simp [discover, keepLatestSeen]
  | succ k ih =>
      have hk' : k < index.length := by omega
      have htake : index.take (k + 1) = index.take k ++ [index.getD k defaultBatchIdx] := by
        rw [List.take_succ, List.getElem?_eq_getElem hk', List.getD_eq_getElem _ _ hk']
        rfl
      unfold discover
      simp only
      split
      · rename_i hc
        rw [ih (by omega) seen, htake, keepLatestSeen_snoc, if_pos hc]
      · rename_i hc
        rw [List.reverse_cons, List.map_append, ih (by omega), htake,
          keepLatestSeen_snoc, if_neg hc]
        rfl

theorem lookupPath_setPath_self (m : TrieMap) (p : List TKey) (n : TrieNode) :
    lookupPath (setPath m p n) p = some n := by
  induction m with
  | nil => simp [setPath, lookupPath]
  | cons hd rest ih =>
      obtain ⟨q, x⟩ := hd
      by_cases hq : q = p
      · simp [setPath, lookupPath, hq]
      · simp [setPath, lookupPath, hq, ih]

theorem lookupPath_setPath_ne (m : TrieMap) (p q : List TKey) (n : TrieNode)
    (h : q ≠ p) : lookupPath (setPath m p n) q = lookupPath m q := by
  induction m with
  | nil =>
      simp only [setPath, lookupPath]
      rw [if_neg (fun hh => h hh.symm)]
  | cons hd rest ih =>
      obtain ⟨q2, x⟩ := hd
      by_cases hq : q2 = p
      · subst hq
        simp only [setPath, if_pos rfl, lookupPath]
        rw [if_neg (fun hh => h hh.symm), if_neg (fun hh => h hh.symm)]
      · simp only [setPath, if_neg hq, lookupPath]
        by_cases hq2 : q2 = q
        · rw [if_pos hq2, if_pos hq2]
        · rw [if_neg hq2, if_neg hq2, ih]

theorem lookupPath_delPath_ne (m : TrieMap) (p q : List TKey) (h : q ≠ p) :
    lookupPath (delPath m p) q = lookupPath m q := by
  induction m with
  | nil => rfl
  | cons hd rest ih =>
      obtain ⟨q2, x⟩ := hd
      by_cases hqp : q2 = p
      · subst hqp
        have hr : delPath ((q2, x) :: rest) q2 = rest := by simp [delPath]
        rw [hr]
        simp only [lookupPath]
        rw [if_neg (fun hh : q2 = q => h hh.symm)]
      · by_cases hq2 : q2 = q
        · simp only [delPath, if_neg hqp, lookupPath, if_pos hq2]
        · simp only [delPath, if_neg hqp, lookupPath, if_neg hq2]
          exact ih

theorem lookupPath_eq_none_of_not_any (m : TrieMap) (p : List TKey)
    (h : m.any (fun r => decide (r.1 = p)) = false) : lookupPath m p = none := by
  induction m with
  | nil => rfl
  | cons hd rest ih =>
      obtain ⟨q, x⟩ := hd
      simp only [List.any_cons, Bool.or_eq_false_iff, decide_eq_false_iff_not] at h
      simp only [lookupPath, if_neg h.1]
      exact ih h.2

theorem lookupPath_delPath_self (m : TrieMap) (p : List TKey)
    (hnd : keysNodup m = true) : lookupPath (delPath m p) p = none := by
  induction m with
  | nil => rfl
  | cons hd rest ih =>
      obtain ⟨q, x⟩ := hd
      simp only [keysNodup, Bool.and_eq_true, Bool.not_eq_true'] at hnd
      by_cases hq : q = p
      · subst hq
        simp only [delPath, if_pos rfl]
        exact lookupPath_eq_none_of_not_any rest q hnd.1
      · simp only [delPath, if_neg hq, lookupPath, if_neg hq]
        exact ih hnd.2

theorem lookupPath_delPath_none (m : TrieMap) (p q : List TKey)
    (h : lookupPath m q = none) : lookupPath (delPath m p) q = none := by
  induction m with
  | nil => rfl
  | cons hd rest ih =>
      obtain ⟨q2, x⟩ := hd
      simp only [lookupPath] at h
      by_cases hq2 : q2 = q
      · rw [if_pos hq2] at h
        exact absurd h (by simp)
      · rw [if_neg hq2] at h
        by_cases hqp : q2 = p
        · simp only [delPath, if_pos hqp]
          exact h
        · simp only [delPath, if_neg hqp, lookupPath, if_neg hq2]
          exact ih h

theorem lookupPath_mem (m : TrieMap) (p : List TKey) (n : TrieNode)
    (h : lookupPath m p = some n) : (p, n) ∈ m := by
  induction m with
  | nil => exact absurd h (by simp [lookupPath])
  | cons hd rest ih =>
      obtain ⟨q, x⟩ := hd
      simp only [lookupPath] at h
      by_cases hq : q = p
      · rw [if_pos hq] at h
        subst hq
        cases h
        exact List.mem_cons_self _ _
      · rw [if_neg hq] at h
        exact List.mem_cons_of_mem _ (ih h)

theorem mem_setPath_elim (m : TrieMap) (p : List TKey) (n : TrieNode)
    (x : List TKey × TrieNode) :
    keysNodup m = true → x ∈ setPath m p n → (x ∈ m ∧ x.1 ≠ p) ∨ x = (p, n) := by
  induction m with
  | nil =>
      intro hnd hx
      simp only [setPath, List.mem_singleton] at hx
      exact Or.inr hx
  | cons hd rest ih =>
      obtain ⟨q, y⟩ := hd
      intro hnd hx
      simp only [keysNodup, Bool.and_eq_true, Bool.not_eq_true'] at hnd
      by_cases hq : q = p
      · subst hq
        simp only [setPath, if_pos rfl, if_true, List.mem_cons] at hx
        rcases hx with hx | hx
        · exact Or.inr hx
        · refine Or.inl ⟨List.mem_cons_of_mem _ hx, ?_⟩
          intro hxq
          have : rest.any (fun r => decide (r.1 = q)) = true :=
            List.any_eq_true.mpr ⟨x, hx, by simp [hxq]⟩
          rw [hnd.1] at this
          exact absurd this (by simp)
      · simp only [setPath, if_neg hq, List.mem_cons] at hx
        rcases hx with hx | hx
        · subst hx
          exact Or.inl ⟨List.mem_cons_self _ _, hq⟩
        · rcases ih hnd.2 hx with ⟨h1, h2⟩ | h1
          · exact Or.inl ⟨List.mem_cons_of_mem _ h1, h2⟩
          · exact Or.inr h1

theorem mem_delPath_sub (m : TrieMap) (p : List TKey)
    (x : List TKey × TrieNode) (hx : x ∈ delPath m p) : x ∈ m := by
  induction m with
  | nil => exact absurd hx (by simp [delPath])
  | cons hd rest ih =>
      obtain ⟨q, y⟩ := hd
      by_cases hq : q = p
      · simp only [delPath, if_pos hq] at hx
        exact List.mem_cons_of_mem _ hx
      · simp only [delPath, if_neg hq, List.mem_cons] at hx
        rcases hx with hx | hx
        · exact hx ▸ List.mem_cons_self _ _
        · exact List.mem_cons_of_mem _ (ih hx)

theorem mem_delPath_elim (m : TrieMap) (p : List TKey)
    (x : List TKey × TrieNode) (hnd : keysNodup m = true)
    (hx : x ∈ delPath m p) : x ∈ m ∧ x.1 ≠ p := by
  induction m with
  | nil => exact absurd hx (by simp [delPath])
  | cons hd rest ih =>
      obtain ⟨q, y⟩ := hd
      simp only [keysNodup, Bool.and_eq_true, Bool.not_eq_true'] at hnd
      by_cases hq : q = p
      · subst hq
        simp only [delPath, if_pos rfl] at hx
        refine ⟨List.mem_cons_of_mem _ hx, ?_⟩
        intro hxp
        have : rest.any (fun r => decide (r.1 = q)) = true :=
          List.any_eq_true.mpr ⟨x, hx, by simp [hxp]⟩
        rw [hnd.1] at this
        exact absurd this (by simp)
      · simp only [delPath, if_neg hq, List.mem_cons] at hx
        rcases hx with hx | hx
        · subst hx
          exact ⟨List.mem_cons_self _ _, hq⟩
        · obtain ⟨h1, h2⟩ := ih hnd.2 hx
          exact ⟨List.mem_cons_of_mem _ h1, h2⟩

theorem mem_keys_iff_lookup (m : TrieMap) (p : List TKey) :
    p ∈ keys m ↔ (lookupPath m p).isSome = true := by
  induction m with
  | nil => simp [keys, lookupPath]
  | cons hd rest ih =>
      obtain ⟨q, x⟩ := hd
      simp only [keys, List.map_cons, List.mem_cons, lookupPath]
      by_cases hq : q = p
      · subst hq
        simp
      · rw [if_neg hq]
        have hpq : ¬ p = q := fun hh => hq hh.symm
        simp only [keys] at ih
        simp [hpq, ih]

theorem any_key_setPath (m : TrieMap) (p : List TKey) (n : TrieNode)
    (a : List TKey) (hap : a ≠ p) :
    ((setPath m p n).any (fun r => decide (r.1 = a)))
      = m.any (fun r => decide (r.1 = a)) := by
  induction m with
  | nil =>
      simp only [setPath, List.any_cons, List.any_nil, Bool.or_false]
      simp [decide_eq_false (fun hh : p = a => hap hh.symm)]
  | cons hd rest ih =>
      obtain ⟨q, x⟩ := hd
      by_cases hq : q = p
      · subst hq
        simp [setPath, List.any_cons]
      · simp only [setPath, if_neg hq, List.any_cons, ih]

theorem keysNodup_setPath (m : TrieMap) (p : List TKey) (n : TrieNode)
    (hnd : keysNodup m = true) : keysNodup (setPath m p n) = true := by
  induction m with
  | nil => simp [setPath, keysNodup]
  | cons hd rest ih =>
      obtain ⟨q, x⟩ := hd
      simp only [keysNodup, Bool.and_eq_true, Bool.not_eq_true'] at hnd
      by_cases hq : q = p
      · subst hq
        simp only [setPath, if_pos rfl, if_true, keysNodup, Bool.and_eq_true,
          Bool.not_eq_true']
        exact hnd
      · simp only [setPath, if_neg hq, keysNodup, Bool.and_eq_true, Bool.not_eq_true']
        refine ⟨?_, ih hnd.2⟩
        rw [any_key_setPath rest p n q hq]
        exact hnd.1

theorem any_key_delPath_false (m : TrieMap) (p a : List TKey)
    (h : m.any (fun r => decide (r.1 = a)) = false) :
    (delPath m p).any (fun r => decide (r.1 = a)) = false := by
  induction m with
  | nil => rfl
  | cons hd rest ih =>
      obtain ⟨q, x⟩ := hd
      simp only [List.any_cons, Bool.or_eq_false_iff] at h
      by_cases hq : q = p
      · simp only [delPath, if_pos hq]
        exact h.2
      · simp only [delPath, if_neg hq, List.any_cons, Bool.or_eq_false_iff]
        exact ⟨h.1, ih h.2⟩

theorem keysNodup_delPath (m : TrieMap) (p : List TKey)
    (hnd : keysNodup m = true) : keysNodup (delPath m p) = true := by
  induction m with
  | nil => rfl
  | cons hd rest ih =>
      obtain ⟨q, x⟩ := hd
      simp only [keysNodup, Bool.and_eq_true, Bool.not_eq_true'] at hnd
      by_cases hq : q = p
      · simp only [delPath, if_pos hq]
        exact hnd.2
      · simp only [delPath, if_neg hq, keysNodup, Bool.and_eq_true, Bool.not_eq_true']
        exact ⟨any_key_delPath_false rest p q hnd.1, ih hnd.2⟩

theorem hasChild_eq (m : TrieMap) (p : List TKey) :
    hasChild m p = (keys m).any
      (fun q => decide (q.length = p.length + 1) && decide (q.take p.length = p)) := by
  induction m with
  | nil => rfl
  | cons hd rest ih =>
      simp only [hasChild, keys, List.map_cons, List.any_cons] at ih ⊢
      rw [ih]

theorem hasChild_congr (m1 m2 : TrieMap) (p : List TKey) (h : keys m1 = keys m2) :
    hasChild m1 p = hasChild m2 p := by
  rw [hasChild_eq, hasChild_eq, h]

theorem keys_setPath_present (m : TrieMap) (p : List TKey) (n : TrieNode)
    (h : (lookupPath m p).isSome = true) : keys (setPath m p n) = keys m := by
  induction m with
  | nil => simp [lookupPath] at h
  | cons hd rest ih =>
      obtain ⟨q, x⟩ := hd
      by_cases hq : q = p
      · simp [setPath, hq, keys]
      · simp only [lookupPath, if_neg hq] at h
        simp only [setPath, if_neg hq, keys, List.map_cons]
        simp only [keys] at ih
        rw [ih h]

theorem keys_setPath_new (m : TrieMap) (p : List TKey) (n : TrieNode)
    (h : lookupPath m p = none) : keys (setPath m p n) = keys m ++ [p] := by
  induction m with
  | nil => simp [setPath, keys]
  | cons hd rest ih =>
      obtain ⟨q, x⟩ := hd
      simp only [lookupPath] at h
      by_cases hq : q = p
      · rw [if_pos hq] at h
        exact absurd h (by simp)
      · rw [if_neg hq] at h
        simp only [setPath, if_neg hq, keys, List.map_cons, List.cons_append]
        simp only [keys] at ih
        rw [ih h]

theorem hasChild_setPath_mono (m : TrieMap) (p q : List TKey) (n : TrieNode)
    (h : hasChild m q = true) : hasChild (setPath m p n) q = true := by
  cases hl : lookupPath m p with
  | some v =>
      rw [hasChild_congr _ m q (keys_setPath_present m p n (by simp [hl]))]
      exact h
  | none =>
      rw [hasChild_eq] at h ⊢
      rw [keys_setPath_new m p n hl, List.any_append, h]
      rfl

theorem mem_keys_delPath_of_ne (m : TrieMap) (p r : List TKey)
    (hr : r ∈ keys m) (hne : r ≠ p) : r ∈ keys (delPath m p) := by
  induction m with
  | nil => simp [keys] at hr
  | cons hd rest ih =>
      obtain ⟨q, x⟩ := hd
      simp only [keys, List.map_cons, List.mem_cons] at hr
      by_cases hq : q = p
      · simp only [delPath, if_pos hq]
        rcases hr with hr | hr
        · exact absurd (hr.trans hq) hne
        · exact hr
      · simp only [delPath, if_neg hq, keys, List.map_cons, List.mem_cons]
        rcases hr with hr | hr
        · exact Or.inl hr
        · exact Or.inr (ih hr)

theorem hasChild_delPath_of_ne (m : TrieMap) (p q : List TKey)
    (hq : q ≠ p.dropLast) (h : hasChild m q = true) :
    hasChild (delPath m p) q = true := by
  rw [hasChild_eq] at h
  obtain ⟨r, hrmem, hrp⟩ := List.any_eq_true.mp h
  simp only [Bool.and_eq_true, decide_eq_true_eq] at hrp
  have hrne : r ≠ p := by
    intro hre
    subst hre
    apply hq
    have hlen : q.length = r.length - 1 := by omega
    have hq2 : q = r.take (r.length - 1) := by
      rw [← hlen]
      exact hrp.2.symm
    rw [hq2, ← List.dropLast_eq_take]
  rw [hasChild_eq]
  refine List.any_eq_true.mpr ⟨r, mem_keys_delPath_of_ne m p r hrmem hrne, ?_⟩
  simp [hrp.1, hrp.2]

theorem trieInvExcept_of_inv (m : TrieMap) (p : List TKey)
    (h : trieInv m = true) : trieInvExcept m p = true := by
  unfold trieInv at h
  unfold trieInvExcept
  rw [List.all_eq_true] at h ⊢
  intro x hx
  have hcl := h x hx
  simp only [Bool.or_eq_true] at hcl ⊢
  tauto

theorem trieInv_of_except_root (m : TrieMap)
    (h : trieInvExcept m [] = true) : trieInv m = true := by
  unfold trieInvExcept at h
  unfold trieInv
  rw [List.all_eq_true] at h ⊢
  intro x hx
  have hcl := h x hx
  simp only [Bool.or_eq_true] at hcl ⊢
  tauto

theorem lookup_of_mem_nodup (m : TrieMap) (x : List TKey × TrieNode) :
    keysNodup m = true → x ∈ m → lookupPath m x.1 = some x.2 := by
  induction m with
  | nil =>
      intro _ hx
      exact absurd hx (by simp)
  | cons hd rest ih =>
      obtain ⟨q, y⟩ := hd
      intro hnd hx
      simp only [keysNodup, Bool.and_eq_true, Bool.not_eq_true'] at hnd
      rcases List.mem_cons.mp hx with hx | hx
      · subst hx
        simp [lookupPath]
      · simp only [lookupPath]
        by_cases hq : q = x.1
        · exfalso
          have : rest.any (fun r => decide (r.1 = q)) = true :=
            List.any_eq_true.mpr ⟨x, hx, by simp [hq]⟩
          rw [hnd.1] at this
          exact absurd this (by simp)
        · rw [if_neg hq]
          exact ih hnd.2 hx

theorem goodMap_intro (m : TrieMap) (hnd : keysNodup m = true)
    (hroot : rootPresent m = true) (hpar : parentClosed m = true)
    (hinv : trieInv m = true) : goodMap m = true := by
  simp [goodMap, hnd, hroot, hpar, hinv]

theorem goodMap_elim (m : TrieMap) (h : goodMap m = true) :
    keysNodup m = true ∧ rootPresent m = true
      ∧ parentClosed m = true ∧ trieInv m = true := by
  simp only [goodMap, Bool.and_eq_true] at h
  tauto

theorem goodMap_prune_aux : ∀ (fuel : Nat) (m : TrieMap) (p : List TKey),
    p.length ≤ fuel →
    keysNodup m = true → rootPresent m = true → parentClosed m = true →
    trieInvExcept m p = true → goodMap (prune m p) = true := by
  intro fuel
  induction fuel with
  | zero =>
      intro m p hlen hnd hroot hpar hinv
      have hp : p = [] := List.length_eq_zero.mp (Nat.le_zero.mp hlen)
      subst hp
      rw [prune]
      simp only [dif_pos rfl]
      exact goodMap_intro m hnd hroot hpar (trieInv_of_except_root m hinv)
  | succ k ihf =>
      intro m p hlen hnd hroot hpar hinv
      by_cases hp : p = []
      · subst hp
        rw [prune]
        simp only [dif_pos rfl]
        exact goodMap_intro m hnd hroot hpar (trieInv_of_except_root m hinv)
      · rw [prune]
        simp only [dif_neg hp]
        cases hl : lookupPath m p with
        | none =>
            have hinvm : trieInv m = true := by
              unfold trieInv
              unfold trieInvExcept at hinv
              rw [List.all_eq_true] at hinv ⊢
              intro x hx
              have hcl := hinv x hx
              simp only [Bool.or_eq_true, or_assoc, decide_eq_true_eq] at hcl ⊢
              rcases hcl with hcl | hcl
              · exfalso
                have hxk : x.1 ∈ keys m := List.mem_map_of_mem Prod.fst hx
                rw [hcl, mem_keys_iff_lookup, hl] at hxk
                exact absurd hxk (by simp)
              · exact hcl
            exact goodMap_intro m hnd hroot hpar hinvm
        | some n =>
            show goodMap (if (n.ss.isEmpty && !hasChild m p) = true then
                prune (delPath m p) p.dropLast else m) = true
            by_cases hcond : (n.ss.isEmpty && !hasChild m p) = true
            · rw [if_pos hcond]
              simp only [Bool.and_eq_true, Bool.not_eq_true'] at hcond
              have hnd2 := keysNodup_delPath m p hnd
              have hroot2 : rootPresent (delPath m p) = true := by
                unfold rootPresent
                rw [lookupPath_delPath_ne m p [] (fun hh => hp hh.symm)]
                exact hroot
              have hpar2 : parentClosed (delPath m p) = true := by
                unfold parentClosed
                rw [List.all_eq_true]
                intro x hx
                obtain ⟨hxm, hxnp⟩ := mem_delPath_elim m p x hnd hx
                have hcl := List.all_eq_true.mp hpar x hxm
                simp only [Bool.or_eq_true, decide_eq_true_eq] at hcl ⊢
                rcases hcl with hcl | hcl
                · exact Or.inl hcl
                · right
                  by_cases hpd : x.1.dropLast = p
                  · exfalso
                    have hx1ne : x.1 ≠ [] := by
                      intro h0
                      rw [h0] at hpd
                      exact hp (by simpa using hpd.symm)
                    have hpos : 0 < x.1.length := List.length_pos.mpr hx1ne
                    have hchild : hasChild m p = true := by
                      rw [hasChild_eq]
                      refine List.any_eq_true.mpr
                        ⟨x.1, List.mem_map_of_mem Prod.fst hxm, ?_⟩
                      simp only [Bool.and_eq_true, decide_eq_true_eq]
                      constructor
                      · rw [← hpd, List.length_dropLast]
                        omega
                      · rw [← hpd, List.length_dropLast, ← List.dropLast_eq_take]
                    rw [hcond.2] at hchild
                    exact absurd hchild (by simp)
                  · rw [lookupPath_delPath_ne m p _ hpd]
                    exact hcl
              have hinv2 : trieInvExcept (delPath m p) p.dropLast = true := by
                unfold trieInvExcept
                rw [List.all_eq_true]
                intro x hx
                obtain ⟨hxm, hxnp⟩ := mem_delPath_elim m p x hnd hx
                have hcl := by
                  have hh := hinv
                  unfold trieInvExcept at hh
                  exact List.all_eq_true.mp hh x hxm
                simp only [Bool.or_eq_true, or_assoc, decide_eq_true_eq] at hcl ⊢
                by_cases hxd : x.1 = p.dropLast
                · exact Or.inl hxd
                · right
                  rcases hcl with hcl | hcl | hcl | hcl
                  · exact absurd hcl hxnp
                  · exact Or.inl hcl
                  · exact Or.inr (Or.inl hcl)
                  · exact Or.inr (Or.inr (hasChild_delPath_of_ne m p x.1 hxd hcl))
              have hlen2 : p.dropLast.length ≤ k := by
                rw [List.length_dropLast]
                have := List.length_pos.mpr hp
                omega
              exact ihf (delPath m p) p.dropLast hlen2 hnd2 hroot2 hpar2 hinv2
            · rw [if_neg hcond]
              have hinvm : trieInv m = true := by
                unfold trieInv
                unfold trieInvExcept at hinv
                rw [List.all_eq_true] at hinv ⊢
                intro x hx
                have hcl := hinv x hx
                simp only [Bool.or_eq_true, or_assoc, decide_eq_true_eq] at hcl ⊢
                rcases hcl with hcl | hcl
                · -- the entry at p; use the failed prune condition
                  have hx2 : x.2 = n := by
                    have hlk := lookup_of_mem_nodup m x hnd hx
                    rw [hcl, hl] at hlk
                    exact (Option.some_inj.mp hlk).symm
                  simp only [Bool.and_eq_true, Bool.not_eq_true',
                    Bool.not_eq_true] at hcond
                  right
                  rw [hx2, hcl]
                  cases hss : n.ss.isEmpty with
                  | false =>
                      left
                      simp [hss]
                  | true =>
                      right
                      cases hch : hasChild m p with
                      | false => exact absurd ⟨hss, hch⟩ hcond
                      | true => rfl
                · exact hcl
              exact goodMap_intro m hnd hroot hpar hinvm

theorem lookupPath_setPath_isSome (m : TrieMap) (p q : List TKey) (n : TrieNode)
    (h : (lookupPath m q).isSome = true) :
    (lookupPath (setPath m p n) q).isSome = true := by
  by_cases hq : q = p
  · subst hq
    rw [lookupPath_setPath_self]
    rfl
  · rw [lookupPath_setPath_ne m p q n hq]
    exact h

theorem goodMap_trieAddAux : ∀ (parts : List TKey) (m : TrieMap) (cur : List TKey)
    (depth seq : Nat),
    keysNodup m = true → rootPresent m = true → parentClosed m = true →
    trieInvExcept m cur = true → (lookupPath m cur).isSome = true →
    goodMap (trieAddAux m cur parts depth seq) = true := by
  intro parts
  induction parts with
  | nil =>
      intro m cur depth seq hnd hroot hpar hinv hcur
      simp only [trieAddAux]
      have hnd2 := keysNodup_setPath m cur
        { ss := ((lookupPath m cur).getD { ss := [], depth := 0 }).ss ++ [seq],
          depth := depth } hnd
      have hkeys := keys_setPath_present m cur
        { ss := ((lookupPath m cur).getD { ss := [], depth := 0 }).ss ++ [seq],
          depth := depth } hcur
      apply goodMap_intro _ hnd2
      · unfold rootPresent
        by_cases hc : cur = []
        · subst hc
          rw [lookupPath_setPath_self]
          rfl
        · rw [lookupPath_setPath_ne m cur [] _ (fun hh => hc hh.symm)]
          exact hroot
      · unfold parentClosed
        rw [List.all_eq_true]
        intro x hx
        rcases mem_setPath_elim m cur _ x hnd hx with ⟨hxm, _⟩ | hxeq
        · have hcl := List.all_eq_true.mp hpar x hxm
          simp only [Bool.or_eq_true, decide_eq_true_eq] at hcl ⊢
          rcases hcl with hcl | hcl
          · exact Or.inl hcl
          · exact Or.inr (lookupPath_setPath_isSome m cur _ _ hcl)
        · have hsome := hcur
          rw [Option.isSome_iff_exists] at hsome
          obtain ⟨v, hv⟩ := hsome
          have hmem := lookupPath_mem m cur v hv
          have hcl := List.all_eq_true.mp hpar _ hmem
          simp only [Bool.or_eq_true, decide_eq_true_eq] at hcl ⊢
          rw [hxeq]
          rcases hcl with hcl | hcl
          · exact Or.inl hcl
          · exact Or.inr (lookupPath_setPath_isSome m cur _ _ hcl)
      · unfold trieInv
        rw [List.all_eq_true]
        intro x hx
        rcases mem_setPath_elim m cur _ x hnd hx with ⟨hxm, hxne⟩ | hxeq
        · have hcl := by
            have hh := hinv
            unfold trieInvExcept at hh
            exact List.all_eq_true.mp hh x hxm
          simp only [Bool.or_eq_true, or_assoc, decide_eq_true_eq] at hcl ⊢
          rcases hcl with hcl | hcl | hcl | hcl
          · exact absurd hcl hxne
          · exact Or.inl hcl
          · exact Or.inr (Or.inl hcl)
          · refine Or.inr (Or.inr ?_)
            rw [hasChild_congr _ m x.1 hkeys]
            exact hcl
        · rw [hxeq]
          simp
  | cons k rest ih =>
      intro m cur depth seq hnd hroot hpar hinv hcur
      simp only [trieAddAux]
      cases hpres : (lookupPath m (cur ++ [k])).isSome with
      | true =>
          rw [if_pos rfl]
          apply ih m (cur ++ [k]) depth seq hnd hroot hpar ?_ hpres
          unfold trieInvExcept
          rw [List.all_eq_true]
          intro x hx
          have hcl := by
            have hh := hinv
            unfold trieInvExcept at hh
            exact List.all_eq_true.mp hh x hx
          simp only [Bool.or_eq_true, or_assoc, decide_eq_true_eq] at hcl ⊢
          rcases hcl with hcl | hcl | hcl | hcl
          · -- node at cur now has the child cur ++ [k]
            refine Or.inr (Or.inr (Or.inr ?_))
            rw [hcl, hasChild_eq]
            refine List.any_eq_true.mpr ⟨cur ++ [k], ?_, ?_⟩
            · rw [mem_keys_iff_lookup]
              exact hpres
            · simp [List.take_left]
          · exact Or.inr (Or.inl hcl)
          · exact Or.inr (Or.inr (Or.inl hcl))
          · exact Or.inr (Or.inr (Or.inr hcl))
      | false =>
          rw [if_neg (by simp)]
          have hnone : lookupPath m (cur ++ [k]) = none := by
            cases hv : lookupPath m (cur ++ [k])
            · rfl
            · rw [hv] at hpres
              exact absurd hpres (by simp)
          have hnd2 := keysNodup_setPath m (cur ++ [k]) { ss := [], depth := 0 } hnd
          have hkeys := keys_setPath_new m (cur ++ [k]) { ss := [], depth := 0 } hnone
          apply ih _ (cur ++ [k]) depth seq hnd2 ?_ ?_ ?_ ?_
          · unfold rootPresent
            rw [lookupPath_setPath_ne m _ [] _ (by simp)]
            exact hroot
          · unfold parentClosed
            rw [List.all_eq_true]
            intro x hx
            rcases mem_setPath_elim m _ _ x hnd hx with ⟨hxm, _⟩ | hxeq
            · have hcl := List.all_eq_true.mp hpar x hxm
              simp only [Bool.or_eq_true, decide_eq_true_eq] at hcl ⊢
              rcases hcl with hcl | hcl
              · exact Or.inl hcl
              · exact Or.inr (lookupPath_setPath_isSome m _ _ _ hcl)
            · rw [hxeq]
              simp only [Bool.or_eq_true, decide_eq_true_eq]
              right
              rw [List.dropLast_concat]
              exact lookupPath_setPath_isSome m _ _ _ hcur
          · unfold trieInvExcept
            rw [List.all_eq_true]
            intro x hx
            rcases mem_setPath_elim m _ _ x hnd hx with ⟨hxm, hxne⟩ | hxeq
            · have hcl := by
                have hh := hinv
                unfold trieInvExcept at hh
                exact List.all_eq_true.mp hh x hxm
              simp only [Bool.or_eq_true, or_assoc, decide_eq_true_eq] at hcl ⊢
              rcases hcl with hcl | hcl | hcl | hcl
              · refine Or.inr (Or.inr (Or.inr ?_))
                rw [hcl, hasChild_eq, hkeys, List.any_append]
                simp [List.take_left]
              · exact Or.inr (Or.inl hcl)
              · exact Or.inr (Or.inr (Or.inl hcl))
              · refine Or.inr (Or.inr (Or.inr ?_))
                exact hasChild_setPath_mono m _ _ _ hcl
            · rw [hxeq]
              simp
          · rw [lookupPath_setPath_self]
            rfl

theorem goodMap_trieAdd (m : TrieMap) (parts : List TKey) (depth seq : Nat)
    (hg : goodMap m = true) : goodMap (trieAdd parts depth seq m) = true := by
  obtain ⟨hnd, hroot, hpar, hinv⟩ := goodMap_elim m hg
  exact goodMap_trieAddAux parts m [] depth seq hnd hroot hpar
    (trieInvExcept_of_inv m [] hinv) hroot

theorem goodMap_trieRemove (m : TrieMap) (parts : List TKey) (seq : Nat)
    (hg : goodMap m = true) : goodMap (trieRemove parts seq m) = true := by
  obtain ⟨hnd, hroot, hpar, hinv⟩ := goodMap_elim m hg
  unfold trieRemove
  cases hl : lookupPath m parts with
  | none => exact hg
  | some n =>
      show goodMap (prune (setPath m parts
        { ss := ssRemove n.ss seq, depth := n.depth }) parts) = true
      apply goodMap_prune_aux parts.length _ parts le_rfl
      · exact keysNodup_setPath m parts _ hnd
      · unfold rootPresent
        by_cases hc : parts = []
        · subst hc
          rw [lookupPath_setPath_self]
          rfl
        · rw [lookupPath_setPath_ne m parts [] _ (fun hh => hc hh.symm)]
          exact hroot
      · unfold parentClosed
        rw [List.all_eq_true]
        intro x hx
        rcases mem_setPath_elim m parts _ x hnd hx with ⟨hxm, _⟩ | hxeq
        · have hcl := List.all_eq_true.mp hpar x hxm
          simp only [Bool.or_eq_true, decide_eq_true_eq] at hcl ⊢
          rcases hcl with hcl | hcl
          · exact Or.inl hcl
          · exact Or.inr (lookupPath_setPath_isSome m parts _ _ hcl)
        · have hmem := lookupPath_mem m parts n hl
          have hcl := List.all_eq_true.mp hpar _ hmem
          simp only [Bool.or_eq_true, decide_eq_true_eq] at hcl ⊢
          rw [hxeq]
          rcases hcl with hcl | hcl
          · exact Or.inl hcl
          · exact Or.inr (lookupPath_setPath_isSome m parts _ _ hcl)
      · unfold trieInvExcept
        rw [List.all_eq_true]
        intro x hx
        rcases mem_setPath_elim m parts _ x hnd hx with ⟨hxm, hxne⟩ | hxeq
        · have hcl := by
            have hh := hinv
            unfold trieInv at hh
            exact List.all_eq_true.mp hh x hxm
          simp only [Bool.or_eq_true, or_assoc, decide_eq_true_eq] at hcl ⊢
          have hkeys := keys_setPath_present m parts
            { ss := ssRemove n.ss seq, depth := n.depth } (by simp [hl])
          rcases hcl with hcl | hcl | hcl
          · exact Or.inr (Or.inl hcl)
          · exact Or.inr (Or.inr (Or.inl hcl))
          · refine Or.inr (Or.inr (Or.inr ?_))
            rw [hasChild_congr _ m x.1 hkeys]
            exact hcl
        · rw [hxeq]
          simp

theorem goodMap_trieInit : goodMap trieInit = true := by decide

theorem goodMap_applyOp (m : TrieMap) (op : TrieOp) (hg : goodMap m = true) :
    goodMap (applyOp m op) = true := by
  cases op with
  | add parts depth seq => exact goodMap_trieAdd m parts depth seq hg
  | remove parts seq => exact goodMap_trieRemove m parts seq hg

theorem goodMap_applyOps (ops : List TrieOp) : goodMap (applyOps ops) = true := by
  unfold applyOps
  suffices h : ∀ m : TrieMap, goodMap m = true → goodMap (ops.foldl applyOp m) = true by
    exact h trieInit goodMap_trieInit
  induction ops with
  | nil =>
      intro m hm
      exact hm
  | cons op rest ih =>
      intro m hm
      exact ih _ (goodMap_applyOp m op hm)

theorem lookupPath_prune_none_aux : ∀ (fuel : Nat) (m : TrieMap) (p q : List TKey),
    p.length ≤ fuel → lookupPath m q = none →
    lookupPath (prune m p) q = none := by
  intro fuel
  induction fuel with
  | zero =>
      intro m p q hlen h
      have hp : p = [] := List.length_eq_zero.mp (Nat.le_zero.mp hlen)
      subst hp
      rw [prune]
      simp only [dif_pos rfl]
      exact h
  | succ k ihf =>
      intro m p q hlen h
      by_cases hp : p = []
      · subst hp
        rw [prune]
        simp only [dif_pos rfl]
        exact h
      · rw [prune]
        simp only [dif_neg hp]
        cases hl : lookupPath m p with
        | none => exact h
        | some n =>
            show lookupPath (if (n.ss.isEmpty && !hasChild m p) = true then
                prune (delPath m p) p.dropLast else m) q = none
            by_cases hcond : (n.ss.isEmpty && !hasChild m p) = true
            · rw [if_pos hcond]
              apply ihf _ _ q ?_ (lookupPath_delPath_none m p q h)
              rw [List.length_dropLast]
              have := List.length_pos.mpr hp
              omega
            · rw [if_neg hcond]
              exact h

theorem trieRemove_detach_iff (m : TrieMap) (parts : List TKey) (seq : Nat)
    (n : TrieNode) (hg : goodMap m = true) (hl : lookupPath m parts = some n) :
    lookupPath (trieRemove parts seq m) parts = none
      ↔ (parts ≠ [] ∧ ssRemove n.ss seq = [] ∧ hasChild m parts = false) := by
  obtain ⟨hnd, hroot, hpar, hinv⟩ := goodMap_elim m hg
  unfold trieRemove
  rw [hl]
  show lookupPath (prune (setPath m parts
      { ss := ssRemove n.ss seq, depth := n.depth }) parts) parts = none ↔ _
  have hkeys := keys_setPath_present m parts
    { ss := ssRemove n.ss seq, depth := n.depth } (by simp [hl])
  have hhc : hasChild (setPath m parts
      { ss := ssRemove n.ss seq, depth := n.depth }) parts = hasChild m parts :=
    hasChild_congr _ m parts hkeys
  by_cases hp : parts = []
  · subst hp
    rw [prune]
    simp [lookupPath_setPath_self]
  · rw [prune]
    simp only [dif_neg hp]
    rw [lookupPath_setPath_self]
    show lookupPath (if ((ssRemove n.ss seq).isEmpty && !hasChild (setPath m parts
        { ss := ssRemove n.ss seq, depth := n.depth }) parts) = true then
        prune (delPath (setPath m parts
          { ss := ssRemove n.ss seq, depth := n.depth }) parts) parts.dropLast
      else setPath m parts
        { ss := ssRemove n.ss seq, depth := n.depth }) parts = none ↔ _
    by_cases hcond : ((ssRemove n.ss seq).isEmpty && !hasChild (setPath m parts
        { ss := ssRemove n.ss seq, depth := n.depth }) parts) = true
    · rw [if_pos hcond]
      simp only [Bool.and_eq_true, Bool.not_eq_true', hhc] at hcond
      constructor
      · intro _
        exact ⟨hp, List.isEmpty_iff.mp hcond.1, hcond.2⟩
      · intro _
        apply lookupPath_prune_none_aux parts.dropLast.length _ _ _ le_rfl
        exact lookupPath_delPath_self _ parts (keysNodup_setPath m parts _ hnd)
    · rw [if_neg hcond]
      rw [lookupPath_setPath_self]
      simp only [Bool.and_eq_true, Bool.not_eq_true', hhc] at hcond
      constructor
      · intro hcontra
        exact absurd hcontra (by simp)
      · rintro ⟨hp2, hss, hch⟩
        exact absurd ⟨by simp [hss], hch⟩ hcond

/-- How the block index of a hash changes across one split step of the
directory: indices other than the split cursor are unchanged, and a hash on
the split cursor moves to the cursor or to the freshly appended block. -/
theorem blockIndex_after_split (L u h i : Nat) (hu : u < 2 ^ L)
    (hold : blockIndex L u h = i) :
    (i ≠ u → blockIndex (if u + 1 = 2 ^ L then L + 1 else L)
        (if u + 1 = 2 ^ L then 0 else u + 1) h = i)
      ∧ (i = u → blockIndex (if u + 1 = 2 ^ L then L + 1 else L)
            (if u + 1 = 2 ^ L then 0 else u + 1) h = u
          ∨ blockIndex (if u + 1 = 2 ^ L then L + 1 else L)
              (if u + 1 = 2 ^ L then 0 else u + 1) h = 2 ^ L + u) := by
  have hp1 : (2:Nat) ^ (L + 1) = 2 * 2 ^ L := by rw [pow_succ]; ring
  have hp2 : (2:Nat) ^ (L + 2) = 4 * 2 ^ L := by rw [pow_succ, pow_succ]; ring
  have hm1 : h % 2 ^ L < 2 ^ L := Nat.mod_lt h (Nat.two_pow_pos L)
  have hm2 : h % 2 ^ (L + 1) < 2 ^ (L + 1) := Nat.mod_lt h (Nat.two_pow_pos (L + 1))
  have hc := mod_two_pow_succ_cases h L
  have hc2 := mod_two_pow_succ_cases h (L + 1)
  simp only [blockIndex_eq_mod, blockIndexSpec] at hold ⊢
  split_ifs at hold ⊢ <;> omega

theorem splitTable_reaches (t : HashTable)
    (hn : t.nBlocks = 2 ^ t.level + t.splitBlockIdx)
    (hu : t.splitBlockIdx < 2 ^ t.level) (hlen : t.chains.length = t.nBlocks)
    (i : Nat) (hi : i < t.chains.length) (e : IdxEntry)
    (he : e ∈ t.chains.getD i [])
    (hplace : blockIndex t.level t.splitBlockIdx e.hash = i) :
    e ∈ (splitTable t).chains.getD
          (blockIndex (splitTable t).level (splitTable t).splitBlockIdx e.hash) [] := by
  have hdich := blockIndex_after_split t.level t.splitBlockIdx e.hash i hu hplace
  have hL : (splitTable t).level
      = if t.splitBlockIdx + 1 = 2 ^ t.level then t.level + 1 else t.level := by
    simp [splitTable, Nat.one_shiftLeft]
  have hS : (splitTable t).splitBlockIdx
      = if t.splitBlockIdx + 1 = 2 ^ t.level then 0 else t.splitBlockIdx + 1 := by
    simp [splitTable, Nat.one_shiftLeft]
  have hC : (splitTable t).chains =
      t.chains.set t.splitBlockIdx
          ((t.chains.getD t.splitBlockIdx []).filter
            (fun x => blockIndex (splitTable t).level (splitTable t).splitBlockIdx x.hash
                == t.splitBlockIdx))
        ++ [(t.chains.getD t.splitBlockIdx []).filter
            (fun x => !(blockIndex (splitTable t).level (splitTable t).splitBlockIdx x.hash
                == t.splitBlockIdx))] := rfl
  rw [← hL, ← hS] at hdich
  by_cases hiu : i = t.splitBlockIdx
  · subst hiu
    rcases hdich.2 rfl with hx | hx
    · rw [hC, hx]
      have hulen : t.splitBlockIdx < t.chains.length := hi
      rw [List.getD_eq_getElem?_getD,
        List.getElem?_append_left (by simpa using hulen),
        List.getElem?_set_self hulen]
      simp only [Option.getD_some]
      exact List.mem_filter.mpr ⟨he, by simp [hx]⟩
    · rw [hC, hx]
      rw [List.getD_eq_getElem?_getD,
        List.getElem?_append_right (by simp only [List.length_set]; omega)]
      have hidx : 2 ^ t.level + t.splitBlockIdx
          - (t.chains.set t.splitBlockIdx ((t.chains.getD t.splitBlockIdx []).filter
              (fun x => blockIndex (splitTable t).level (splitTable t).splitBlockIdx x.hash
                  == t.splitBlockIdx))).length = 0 := by
        simp only [List.length_set]
        omega
      rw [hidx]
      simp only [List.getElem?_cons_zero, Option.getD_some]
      refine List.mem_filter.mpr ⟨he, ?_⟩
      have h2 := Nat.two_pow_pos t.level
      simp only [hx, Bool.not_eq_true']
      simp only [beq_eq_false_iff_ne, ne_eq]
      omega
  · rw [hC, hdich.1 hiu]
    rw [List.getD_eq_getElem?_getD,
      List.getElem?_append_left (by simp only [List.length_set]; omega),
      List.getElem?_set_ne (Ne.symm hiu)]
    rw [← List.getD_eq_getElem?_getD]
    exact he

/-- C7: in every trie built by any sequence of Add and Remove operations,
after every operation every node reachable from the root other than the root
has a nonempty seq set or a nonempty children map; and on a well-formed trie
a node is detached from its parent by Remove exactly when its seq set after
the removal and its children map are both empty (emptiness propagating
upward is part of the first conjunct holding after every Remove). -/
theorem claim_C7_trie_orphan :
    (∀ ops : List TrieOp, trieInv (applyOps ops) = true)
      ∧ ∀ (m : TrieMap) (parts : List TKey) (seq : Nat) (n : TrieNode),
          goodMap m = true → lookupPath m parts = some n →
          (lookupPath (trieRemove parts seq m) parts = none
            ↔ (parts ≠ [] ∧ ssRemove n.ss seq = []
                ∧ hasChild m parts = false)) := by
  constructor
  · intro ops
    exact (goodMap_elim _ (goodMap_applyOps ops)).2.2.2
  · intro m parts seq n hg hl
    exact trieRemove_detach_iff m parts seq n hg hl

theorem claim_C7_trie_orphan_witness :
    goodMap (trieAdd [{ query := 1, wildchars := 0 }] 1 5 trieInit) = true
      ∧ lookupPath (trieAdd [{ query := 1, wildchars := 0 }] 1 5 trieInit)
            [{ query := 1, wildchars := 0 }]
          = some { ss := [5], depth := 1 }
      ∧ (lookupPath
            (trieRemove [{ query := 1, wildchars := 0 }] 5
              (trieAdd [{ query := 1, wildchars := 0 }] 1 5 trieInit))
            [{ query := 1, wildchars := 0 }] = none
          ↔ ([{ query := 1, wildchars := 0 }] ≠ ([] : List TKey)
              ∧ ssRemove ({ ss := [5], depth := 1 } : TrieNode).ss 5 = []
              ∧ hasChild (trieAdd [{ query := 1, wildchars := 0 }] 1 5 trieInit)
                  [{ query := 1, wildchars := 0 }] = false)) :=
  ⟨by decide, by decide,
    claim_C7_trie_orphan.2 (trieAdd [{ query := 1, wildchars := 0 }] 1 5 trieInit)
      [{ query := 1, wildchars := 0 }] 5 { ss := [5], depth := 1 }
      (by decide) (by decide)⟩

/-- C8: marshalling a header, unmarshalling the result and marshalling again
yields byte-for-byte the same 512-byte buffer as the first marshal. -/
theorem claim_C8_header_roundtrip (h : Header) :
    headerMarshal (headerUnmarshal (headerMarshal h)) = headerMarshal h := by
  rw [headerUnmarshal_headerMarshal]
  show headerMarshal _ = _
  unfold headerMarshal
  simp only [List.getD_cons_zero, List.getD_cons_succ, List.getD_nil]
  rw [intToUint64_uint64ToInt _ (intToUint64_lt h.info.freelistOff)]
  simp only [octet_mod32 _ 0 (by norm_num), octet_mod32 _ 1 (by norm_num),
    octet_mod32 _ 2 (by norm_num), octet_mod32 _ 3 (by norm_num)]

/-- C1: with allow_duplicates false, uniq retains exactly one entry per
dedup key, namely the last occurrence of that key in the index, keeping the
relative order of those occurrences; with allow_duplicates true, uniq is a
copy of the index in insertion order. -/
theorem claim_C1_uniq (index : List BatchIdx) :
    uniq false index = keepLatest index ∧ uniq true index = index := by
  constructor
  · unfold uniq
    rw [if_neg (by simp)]
    rw [uniqScan_eq]
    simp only [List.nil_append, List.map_nil]
    rw [discover_keepLatest index index.length le_rfl [],
      List.take_length, keepLatestSeen_nil_seen]
  · rfl

/-- C2: evaluation of the write pipeline at a failing input. The claim says
no pending entry is skipped by the processing of an earlier entry, but a
tombstone whose seq misses the presence filter returns nil at once: with the
tombstone first, the following put entry produces no operation at all, while
the same put entry alone is fully processed. -/
theorem claim_C2_tombstone_skips_rest :
    writeInternal (fun s => s == 9) [100] 0 [tombstoneMissEntry, putEntryAfter]
        = ([], none)
      ∧ writeInternal (fun s => s == 9) [100] 0 [putEntryAfter]
        = ([WriteOp.memSet 0 2 100 2, WriteOp.trieAdd 100, WriteOp.winAdd 100 2 5],
            none) := by
  constructor <;> rfl

/-- C3 counterexample: for a non-managed batch with one pending write and a
non-empty buffer whose WAL commit fails with an error, Batch.Commit does not
return that error. -/
theorem claim_C3_counterexample :
    (batchCommit commitBatchExample (some 7)).walCommit = true
      ∧ (batchCommit commitBatchExample (some 7)).returnedErr ≠ some 7 := by
  constructor
  · rfl
  · intro hcontra
    simp [batchCommit, commitBatchExample] at hcontra

/-- C3 amended: for every non-managed batch with at least one pending write
and a non-empty buffer, a failing WAL commit is passed to the logger while
Batch.Commit returns nil to the caller. -/
theorem claim_C3_commit_error_logged (b : BatchState) (e : Nat)
    (h1 : b.pendingWrites ≠ []) (h2 : b.bufferSize ≠ 0) :
    (batchCommit b (some e)).returnedErr = none
      ∧ (batchCommit b (some e)).loggedErr = some e
      ∧ (batchCommit b (some e)).walCommit = true := by
  unfold batchCommit
  rw [if_neg (by simp [List.length_eq_zero, h1, h2])]
  exact ⟨rfl, rfl, rfl⟩

theorem claim_C3_commit_error_logged_witness :
    commitBatchExample.pendingWrites ≠ []
      ∧ commitBatchExample.bufferSize ≠ 0
      ∧ ((batchCommit commitBatchExample (some 7)).returnedErr = none
          ∧ (batchCommit commitBatchExample (some 7)).loggedErr = some 7
          ∧ (batchCommit commitBatchExample (some 7)).walCommit = true) :=
  ⟨by decide, by decide,
    claim_C3_commit_error_logged commitBatchExample 7 (by decide) (by decide)⟩

/-- C4: evaluation of both readHeader variants at a stored header whose
signature bytes differ from the signature constant. The claim says readHeader
never accepts such a header, but the unitdb variant accepts it because its
signature comparison is commented out; the tracedb variant rejects it with
errCorrupted as the claim requires. -/
theorem claim_C4_readHeader_signature :
    readHeaderUnitdb corruptHeaderBytes
        = ReadHeaderResult.ok
            { level := 0, count := 0, nBlocks := 1, splitBlockIdx := 0,
              freelistOff := -1, hashSeed := 0 }
      ∧ readHeaderTracedb corruptHeaderBytes = ReadHeaderResult.corrupted := by
  constructor <;> rfl

/-- C6: a split advances splitBlockIdx by one, wrapping with a level bump
when it reaches two to the level, increments nBlocks by one, and preserves
reachability: every entry reachable through a block chain before the split
remains reachable, unchanged, in the chain selected by the block index of
its hash after the split. -/
theorem claim_C6_split (t : HashTable) (hInv : tableInv t)
    (hwp : tableWellPlaced t = true) :
    (if t.splitBlockIdx + 1 = 2 ^ t.level then
        (splitTable t).splitBlockIdx = 0 ∧ (splitTable t).level = t.level + 1
      else
        (splitTable t).splitBlockIdx = t.splitBlockIdx + 1
          ∧ (splitTable t).level = t.level)
      ∧ (splitTable t).nBlocks = t.nBlocks + 1
      ∧ ∀ i, i < t.chains.length → ∀ e ∈ t.chains.getD i [],
          e ∈ (splitTable t).chains.getD
                (blockIndex (splitTable t).level (splitTable t).splitBlockIdx e.hash)
                [] := by
  obtain ⟨hn, hu, hlen⟩ := hInv
  refine ⟨?_, rfl, ?_⟩
  · by_cases hw : t.splitBlockIdx + 1 = 2 ^ t.level <;>
      simp [splitTable, Nat.one_shiftLeft, hw]
  · intro i hi e he
    have h1 := List.all_eq_true.mp hwp i (List.mem_range.mpr hi)
    have h2 := List.all_eq_true.mp h1 e he
    exact splitTable_reaches t hn hu hlen i hi e he (by simpa using h2)

theorem claim_C6_split_witness :
    tableInv splitWitnessTable
      ∧ tableWellPlaced splitWitnessTable = true
      ∧ ((if splitWitnessTable.splitBlockIdx + 1 = 2 ^ splitWitnessTable.level then
            (splitTable splitWitnessTable).splitBlockIdx = 0
              ∧ (splitTable splitWitnessTable).level = splitWitnessTable.level + 1
          else
            (splitTable splitWitnessTable).splitBlockIdx
                = splitWitnessTable.splitBlockIdx + 1
              ∧ (splitTable splitWitnessTable).level = splitWitnessTable.level)
          ∧ (splitTable splitWitnessTable).nBlocks = splitWitnessTable.nBlocks + 1
          ∧ ∀ i, i < splitWitnessTable.chains.length →
              ∀ e ∈ splitWitnessTable.chains.getD i [],
                e ∈ (splitTable splitWitnessTable).chains.getD
                      (blockIndex (splitTable splitWitnessTable).level
                        (splitTable splitWitnessTable).splitBlockIdx e.hash) []) :=
  ⟨by unfold tableInv; decide, by decide,
    claim_C6_split splitWitnessTable (by unfold tableInv; decide) (by decide)⟩

/-- C9: a non-managed batch whose pending writes are empty or whose buffer
size is zero is aborted by Commit without touching the WAL: the entry count,
size, index and pending writes are reset, the buffer goes back to the pool,
and nil is returned. -/
theorem claim_C9_empty_commit_aborts (b : BatchState) (commitErr : Option Nat)
    (h : b.pendingWrites = [] ∨ b.bufferSize = 0) :
    (batchCommit b commitErr).walCommit = false
      ∧ (batchCommit b commitErr).returnedErr = none
      ∧ (batchCommit b commitErr).bufferToPool = true
      ∧ (batchCommit b commitErr).finalBatch.entryCount = 0
      ∧ (batchCommit b commitErr).finalBatch.size = 0
      ∧ (batchCommit b commitErr).finalBatch.index = []
      ∧ (batchCommit b commitErr).finalBatch.pendingWrites = [] := by
  have hcond : b.pendingWrites.length = 0 ∨ b.bufferSize = 0 := by
    rcases h with h | h
    · exact Or.inl (by simp [h])
    · exact Or.inr h
  unfold batchCommit
  rw [if_pos hcond]
  refine ⟨rfl, rfl, rfl, ?_, ?_, ?_, ?_⟩ <;> simp [batchReset]

theorem claim_C9_empty_commit_aborts_witness :
    (emptyBatchExample.pendingWrites = [] ∨ emptyBatchExample.bufferSize = 0)
      ∧ ((batchCommit emptyBatchExample (some 3)).walCommit = false
          ∧ (batchCommit emptyBatchExample (some 3)).returnedErr = none
          ∧ (batchCommit emptyBatchExample (some 3)).bufferToPool = true
          ∧ (batchCommit emptyBatchExample (some 3)).finalBatch.entryCount = 0
          ∧ (batchCommit emptyBatchExample (some 3)).finalBatch.size = 0
          ∧ (batchCommit emptyBatchExample (some 3)).finalBatch.index = []
          ∧ (batchCommit emptyBatchExample (some 3)).finalBatch.pendingWrites = []) :=
  ⟨by decide,
    claim_C9_empty_commit_aborts emptyBatchExample (some 3) (by decide)⟩

/-- C10: in every directory state reachable from a fresh DB by split steps,
nBlocks equals two to the level plus splitBlockIdx, and consequently the
block index of every hash is below nBlocks, so every probe starts at an
allocated index block. -/
theorem claim_C10_directory_invariant (n : Nat) :
    (splitDirStep^[n] initialDirState).nBlocks
        = 2 ^ (splitDirStep^[n] initialDirState).level
          + (splitDirStep^[n] initialDirState).splitBlockIdx
      ∧ ∀ keyHash : Nat,
          blockIndex (splitDirStep^[n] initialDirState).level
              (splitDirStep^[n] initialDirState).splitBlockIdx keyHash
            < (splitDirStep^[n] initialDirState).nBlocks := by
  refine ⟨(dirInv_iterate n).1, fun keyHash => ?_⟩
  exact blockIndex_lt_of_dirInv (dirInv_iterate n) keyHash

end Unitdb
